import Mathlib

set_option maxRecDepth 8192

/-!
Formal model of the js-assignments kata collection.  Each JavaScript function
named in the claims is translated into an executable Lean definition; numbers
are modelled with Int/Nat, JS generators with explicitly threaded state or a
finite prefix function, and code that can throw with Except.  Theorems below
settle the claims of the specification against these definitions.
-/

/- ### extractRanges (src/task/10-katas-1-tasks.js, lines 263-289) -/

/-- One entry pushed by the loop body of extractRanges: a single integer,
a two-element "start,prev" pair, or a "start-prev" dash range. -/
def rangeItem (start prev : Int) : String :=
  if start = prev then toString start
  else if prev - start = 1 then toString start ++ "," ++ toString prev
  else toString start ++ "-" ++ toString prev

/-- The loop of extractRanges: "start".."prev" is the run currently being
extended, "result" accumulates the rendered items. -/
def extractRangesGo (start prev : Int) : List Int → List String → List String
  | [], result => result ++ [rangeItem start prev]
  | n :: rest, result =>
    if n ≠ prev + 1 then extractRangesGo n n rest (result ++ [rangeItem start prev])
    else extractRangesGo start n rest result

/-- Model of extractRanges: empty input short-circuits to "", otherwise the
rendered items are joined with commas. -/
def extractRanges : List Int → String
  | [] => ""
  | x :: rest => String.intercalate "," (extractRangesGo x x rest [])

/-- Spec-side grouping: split a list into maximal blocks in which each element
is the successor of the previous one. -/
def consecutiveRuns : List Int → List (List Int)
  | [] => []
  | [x] => [[x]]
  | x :: y :: rest =>
    if y = x + 1 then
      match consecutiveRuns (y :: rest) with
      | [] => [[x]]
      | r :: rs => (x :: r) :: rs
    else [x] :: consecutiveRuns (y :: rest)

/-- Spec-side rendering of one maximal run, following the three cases of
the spec: three or more consecutive integers render as "start-end", a run of
exactly two renders as "start,end", an isolated integer renders alone. -/
def renderRun (run : List Int) : String :=
  if 3 ≤ run.length then toString (run.headD 0) ++ "-" ++ toString (run.getLastD 0)
  else if run.length = 2 then toString (run.headD 0) ++ "," ++ toString (run.getLastD 0)
  else toString (run.headD 0)

/-- Spec-side rendering of a whole list, following the words of the spec. -/
def rangesSpec (nums : List Int) : String :=
  String.intercalate "," ((consecutiveRuns nums).map renderRun)

/- ### parseBankAccount digit table (src/task/08-objects-tasks.js, lines 249-260) -/

/-- The fixed digit-pattern table of parseBankAccount, transcribed verbatim
from the source (index = digit). -/
def parseBankAccount.digitPatterns : List String :=
  [" _ | ||_|",
   "   |  | ",
   " _  _||_ ",
   " _  _| _|",
   "   |_|  |",
   " _ |_| _|",
   " _ |_|_| ",
   " _   |  |",
   " _ |_||_|",
   " _ |_| _|"]

/-- JS Array.prototype.indexOf with running index, as used by
parseBankAccount on the digit-pattern table: -1 when absent. -/
def jsIndexOfStrAux (s : String) : List String → Int → Int
  | [], _ => -1
  | x :: xs, i => if x = s then i else jsIndexOfStrAux s xs (i + 1)

/-- Index of the first occurrence of a glyph in the digit-pattern table. -/
def parseBankAccount.patternIndex (s : String) : Int :=
  jsIndexOfStrAux s parseBankAccount.digitPatterns 0

/- ### createCompassPoints (src/task/10-katas-1-tasks.js, lines 19-46) -/

/-- One record of the compass-point array.  JS numbers are exact on the
azimuth values involved, so the azimuth is modelled as a rational. -/
structure CompassPoint where
  abbreviation : String
  azimuth : ℚ

/-- The "names" table of createCompassPoints (row 0 holds the per-column
prefixes, rows 1-4 the per-side stems).  The "sides" and "steps" locals of
the source are dead code and are not modelled. -/
def compassNames : List (List String) :=
  [["", "b", "", "b"],
   ["N", "N", "NE", "E"],
   ["E", "N", "E", "E"],
   ["S", "S", "SE", "E"],
   ["W", "S", "W", "W"]]

/-- The array built by the double loop of createCompassPoints: i and j both
range over 0..3, idx = i*4+j, so exactly 16 entries are produced. -/
def compassPointsRaw : List CompassPoint :=
  (List.range 4).flatMap (fun i =>
    (List.range 4).map (fun j =>
      { abbreviation :=
          (compassNames.getD 0 []).getD j "" ++ (compassNames.getD (i + 1) []).getD j "",
        azimuth := ((i * 4 + j : Nat) : ℚ) * (11.25 : ℚ) }))

/-- Model of the JS statement points[i].abbreviation = a: reading an index
beyond the array yields undefined, and assigning a property on undefined
throws a TypeError. -/
def setCompassAbbrev (pts : List CompassPoint) (i : Nat) (a : String) :
    Except String (List CompassPoint) :=
  if h : i < pts.length then
    Except.ok (pts.set i { pts.get ⟨i, h⟩ with abbreviation := a })
  else Except.error "TypeError"

/-- Model of createCompassPoints(): build the 16 raw points, then apply the
three fix-up assignments at indices 4, 12 and 20. -/
def createCompassPoints : Except String (List CompassPoint) := do
  let p1 ← setCompassAbbrev compassPointsRaw 4 "E"
  let p2 ← setCompassAbbrev p1 12 "S"
  let p3 ← setCompassAbbrev p2 20 "W"
  pure p3

/- ### wrapText (src/task/08-objects-tasks.js, lines 298-312) -/

/-- JS String.prototype.split with a single-character separator, keeping
empty fragments, on a character-list model of strings. -/
def jsSplitAux (sep : Char) : List Char → List Char → List (List Char)
  | [], cur => [cur.reverse]
  | c :: rest, cur =>
    if c = sep then cur.reverse :: jsSplitAux sep rest []
    else jsSplitAux sep rest (c :: cur)

/-- JS split: text.split(sep). -/
def jsSplit (sep : Char) (s : List Char) : List (List Char) :=
  jsSplitAux sep s []

/-- The word loop of wrapText.  A word that fits (with a separating space
when the current line is nonempty) is appended to the current line; otherwise
the current line is yielded if nonempty and the word becomes the new current
line - unless it exceeds the column limit, in which case the source replaces
the current line with the empty string, discarding the word. -/
def wrapTextGo (columns : Nat) (currentLine : List Char) : List (List Char) → List (List Char)
  | [] => if currentLine ≠ [] then [currentLine] else []
  | word :: rest =>
    if currentLine.length + word.length + (if currentLine ≠ [] then 1 else 0) ≤ columns then
      wrapTextGo columns (currentLine ++ (if currentLine ≠ [] then [' '] else []) ++ word) rest
    else
      (if currentLine ≠ [] then [currentLine] else []) ++
        wrapTextGo columns (if word.length ≤ columns then word else []) rest

/-- Model of wrapText: the finite list of lines the generator yields. -/
def wrapText (text : List Char) (columns : Nat) : List (List Char) :=
  wrapTextGo columns [] (jsSplit ' ' text)


/- ### UrlShortener (src/unnamed/part_000, lines 132-167) -/

/-- The fixed alphabet of UrlShortener, transcribed from the constructor.
It holds 84 characters (26 + 26 + 10 + 22). -/
def UrlShortener.urlAllowedChars : List Char :=
  ("ABCDEFGHIJKLMNOPQRSTUVWXYZ" ++ "abcdefghijklmnopqrstuvwxyz" ++
    "0123456789-_.~!*'();:@&=+$,/?#[]").toList

/-- JS String.prototype.indexOf for a single character, with running index. -/
def jsIndexOfCharAux (c : Char) : List Char → Int → Int
  | [], _ => -1
  | x :: xs, i => if x = c then i else jsIndexOfCharAux c xs (i + 1)

/-- this.urlAllowedChars.indexOf(ch): the alphabet index of a character,
-1 when the character is not in the alphabet. -/
def UrlShortener.charIndex (c : Char) : Int :=
  jsIndexOfCharAux c UrlShortener.urlAllowedChars 0

/-- this.base = this.urlAllowedChars.length. -/
def UrlShortener.base : Int := (UrlShortener.urlAllowedChars.length : Int)

/-- The BigInt accumulation loop shared by encode and decode:
num = num * base + indexOf(s[i]) over the characters of s. -/
def UrlShortener.numOf (s : List Char) : Int :=
  s.foldl (fun n c => n * UrlShortener.base + UrlShortener.charIndex c) 0

/-- this.urlAllowedChars[i] for an in-range index (out-of-range reads,
which the source never performs on this path, default to a blank). -/
def UrlShortener.charAt (i : Int) : Char :=
  UrlShortener.urlAllowedChars.getD i.toNat ' '

/-- The while loop of encode and decode: peel base-84 digits off num,
prepending the digit character, until num reaches 0. -/
def UrlShortener.toShortAux (num : Int) (acc : List Char) : List Char :=
  if hpos : 0 < num then
    UrlShortener.toShortAux (num / UrlShortener.base)
      (UrlShortener.charAt (num % UrlShortener.base) :: acc)
  else acc
termination_by num.toNat
decreasing_by
  have hb : UrlShortener.base = 84 := by decide
  rw [hb]
  omega

/-- Model of UrlShortener.prototype.encode: render numOf(url) in base 84;
the empty rendering (value 0) falls back to the first alphabet character. -/
def UrlShortener.encode (url : List Char) : List Char :=
  let short := UrlShortener.toShortAux (UrlShortener.numOf url) []
  if short = [] then [UrlShortener.urlAllowedChars.getD 0 ' '] else short

/-- Model of UrlShortener.prototype.decode: identical loop without the
fallback. -/
def UrlShortener.decode (code : List Char) : List Char :=
  UrlShortener.toShortAux (UrlShortener.numOf code) []

/- ### getPokerHandRank (src/task/08-objects-tasks.js, lines 334-370) -/

def PokerRank.StraightFlush : Nat := 8

def PokerRank.FourOfKind : Nat := 7

def PokerRank.FullHouse : Nat := 6

def PokerRank.Flush : Nat := 5

def PokerRank.Straight : Nat := 4

def PokerRank.ThreeOfKind : Nat := 3

def PokerRank.TwoPairs : Nat := 2

def PokerRank.OnePair : Nat := 1

def PokerRank.HighCard : Nat := 0

/-- JS String.prototype.indexOf with a string needle: scan positions left to
right for an occurrence of the needle. -/
def strIndexOfAux (needle : List Char) : List Char → Int → Int
  | [], i => if needle = [] then i else -1
  | c :: rest, i =>
    if needle.isPrefixOf (c :: rest) then i else strIndexOfAux needle rest (i + 1)

/-- hay.indexOf(needle) on character lists, -1 when absent. -/
def jsStrIndexOf (hay needle : List Char) : Int :=
  strIndexOfAux needle hay 0

/-- JS parseInt restricted to leading decimal digits.  In getPokerHandRank
the parseInt fallback is reached only when indexOf returned 0, i.e. for the
rank "2", so the NaN result of parseInt on non-numeric input is unreachable
and not modelled. -/
def jsParseInt (s : List Char) : Int :=
  (s.takeWhile (fun c => c.isDigit)).foldl (fun n c => n * 10 + ((c.toNat : Int) - 48)) 0

/-- The per-rank value expression of getPokerHandRank, with the JS
short-circuit: indexOf(r) is kept whenever it is truthy (nonzero, including
-1); only an indexOf of 0 falls through to the ace/parseInt alternative. -/
def rankValue (r : List Char) : Int :=
  let i := jsStrIndexOf "23456789TJQKA".toList r
  if i ≠ 0 then i
  else if r = ['A'] then 13 else jsParseInt r - 1

/-- Insertion-order list of distinct ranks: the keys of the rankCount
object, in the order forEach first meets them. -/
def distinctRanks (ranks : List (List Char)) : List (List Char) :=
  ranks.foldl (fun acc r => if r ∈ acc then acc else acc ++ [r]) []

/-- Object.values(rankCount): multiplicity of each distinct rank. -/
def rankCounts (ranks : List (List Char)) : List Nat :=
  (distinctRanks ranks).map (fun r => ranks.count r)

/-- values.every((v,i) => i === 0 || v === values[i-1]+1) on the sorted
value list. -/
def adjSucc : List Int → Bool
  | a :: b :: t => (b == a + 1) && adjSucc (b :: t)
  | _ => true

/-- The isStraight test of the source: a consecutive sorted chain, or the
(unsatisfiable) special case asking the sorted values to be 0,1,2,3,4 with
last value 12 at the same time. -/
def isStraight (w : List Int) : Bool :=
  adjSucc w ||
    ((w.getD 0 99 == 0) && ((w.drop 1).enum.all fun p => p.2 == (p.1 : Int) + 1) &&
      (w.getD 4 99 == 12))

/-- suits.every(suit => suit === suits[0]). -/
def isFlush (suits : List (List Char)) : Bool :=
  suits.all (fun s => s == suits.headD [])

/-- card.slice(-1): the last character of a card token, as a string. -/
def jsSliceLast (card : List Char) : List Char :=
  card.drop (card.length - 1)

/-- Model of getPokerHandRank on card tokens given as character lists. -/
def getPokerHandRank (hand : List (List Char)) : Nat :=
  let ranks := hand.map (fun card => card.dropLast)
  let suits := hand.map jsSliceLast
  let values := ranks.map rankValue
  let w := List.insertionSort (fun a b => a ≤ b) values
  let counts := rankCounts ranks
  let maxCount := counts.foldl max 0
  if isFlush suits && isStraight w then PokerRank.StraightFlush
  else if maxCount == 4 then PokerRank.FourOfKind
  else if maxCount == 3 && counts.contains 2 then PokerRank.FullHouse
  else if isFlush suits then PokerRank.Flush
  else if isStraight w then PokerRank.Straight
  else if maxCount == 3 then PokerRank.ThreeOfKind
  else if (counts.filter (fun c => c == 2)).length == 2 then PokerRank.TwoPairs
  else if maxCount == 2 then PokerRank.OnePair
  else PokerRank.HighCard

/- ### mergeSortedSequences (src/task/07-yield-tasks.js, lines 154-175) -/

/-- One iteration of the merge loop: stop when both iterators are done,
otherwise yield from the exhausted-other or smaller-head source and advance
that source's cursor.  A source is a cursor-indexed view of a JS iterator:
f i is the value produced by the (i+1)-th next() call, none once done. -/
def mergeStep (f1 f2 : Nat → Option Int) (i1 i2 : Nat) : Option (Int × Nat × Nat) :=
  match f1 i1, f2 i2 with
  | none, none => none
  | none, some b => some (b, i1, i2 + 1)
  | some a, none => some (a, i1 + 1, i2)
  | some a, some b => if a ≤ b then some (a, i1 + 1, i2) else some (b, i1, i2 + 1)

/-- The first n elements the merged generator yields, starting from cursor
positions i1 and i2.  Structural recursion on n: pulling a finite prefix
always terminates, one loop iteration per element. -/
def mergeTake (f1 f2 : Nat → Option Int) : Nat → Nat → Nat → List Int
  | 0, _, _ => []
  | n + 1, i1, i2 =>
    match mergeStep f1 f2 i1 i2 with
    | none => []
    | some (v, j1, j2) => v :: mergeTake f1 f2 n j1 j2

/-- Model of mergeSortedSequences: the first n merged elements. -/
def mergeSortedSequences (f1 f2 : Nat → Option Int) (n : Nat) : List Int :=
  mergeTake f1 f2 n 0 0

/-- A source is ascending when consecutive produced values never decrease. -/
def AscendingSrc (f : Nat → Option Int) : Prop :=
  ∀ i a b, f i = some a → f (i + 1) = some b → a ≤ b

/- ### CssSelector (src/task/08-objects-tasks.js, lines 110-164) -/

/-- this.parts of a CssSelector: element, id and pseudoElement start as null
(none); classes, attrs and pseudoClasses accumulate fragments. -/
structure CssParts where
  element : Option String
  id : Option String
  classes : List String
  attrs : List String
  pseudoClasses : List String
  pseudoElement : Option String
deriving DecidableEq

/-- A CssSelector instance. -/
structure CssSelector where
  parts : CssParts
deriving DecidableEq

/-- JS truthiness of a nullable string: null and the empty string are falsy. -/
def jsTruthyOpt : Option String → Bool
  | none => false
  | some s => s != ""

/-- new CssSelector(). -/
def CssSelector.new : CssSelector :=
  ⟨⟨none, none, [], [], [], none⟩⟩

/-- The element method: throws when this.parts.element is truthy. -/
def CssSelector.element (c : CssSelector) (v : String) : Except String CssSelector :=
  if jsTruthyOpt c.parts.element then
    Except.error "Element, id and pseudo-element should be selected only once"
  else Except.ok ⟨{ c.parts with element := some v }⟩

/-- The id method: stores "#" ++ value, throws when already truthy. -/
def CssSelector.id (c : CssSelector) (v : String) : Except String CssSelector :=
  if jsTruthyOpt c.parts.id then
    Except.error "Element, id and pseudo-element should be selected only once"
  else Except.ok ⟨{ c.parts with id := some ("#" ++ v) }⟩

/-- The class method (a Lean keyword, hence the quoted name): always
appends "." ++ value. -/
def CssSelector.«class» (c : CssSelector) (v : String) : Except String CssSelector :=
  Except.ok ⟨{ c.parts with classes := c.parts.classes ++ ["." ++ v] }⟩

/-- The attr method: always appends "[" ++ value ++ "]". -/
def CssSelector.attr (c : CssSelector) (v : String) : Except String CssSelector :=
  Except.ok ⟨{ c.parts with attrs := c.parts.attrs ++ ["[" ++ v ++ "]"] }⟩

/-- The pseudoClass method: always appends ":" ++ value. -/
def CssSelector.pseudoClass (c : CssSelector) (v : String) : Except String CssSelector :=
  Except.ok ⟨{ c.parts with pseudoClasses := c.parts.pseudoClasses ++ [":" ++ v] }⟩

/-- The pseudoElement method: stores "::" ++ value, throws when already
truthy. -/
def CssSelector.pseudoElement (c : CssSelector) (v : String) : Except String CssSelector :=
  if jsTruthyOpt c.parts.pseudoElement then
    Except.error "Element, id and pseudo-element should be selected only once"
  else Except.ok ⟨{ c.parts with pseudoElement := some ("::" ++ v) }⟩

/-- JS (x || '') when rendering a nullable fragment. -/
def optStr : Option String → String
  | none => ""
  | some s => s

/-- stringify(): concatenate the fragments in the fixed order element, id,
classes, attrs, pseudoClasses, pseudoElement. -/
def CssSelector.stringify (c : CssSelector) : String :=
  optStr c.parts.element ++ optStr c.parts.id ++ String.join c.parts.classes ++
    String.join c.parts.attrs ++ String.join c.parts.pseudoClasses ++
    optStr c.parts.pseudoElement

/- ### findStringInSnakingPuzzle (src/unnamed/part_000, lines 30-55) -/

/-- The mutable environment the dfs closure of findStringInSnakingPuzzle
sees: the puzzle grid (never written by the source) and the visited grid. -/
structure SnakeEnv where
  puzzle : List (List Char)
  visited : List (List Bool)
deriving DecidableEq

/-- Point update at an index; indices beyond the list leave it unchanged
(the source only updates in-bounds cells). -/
def modifyAt {α : Type} : List α → Nat → (α → α) → List α
  | [], _, _ => []
  | x :: xs, 0, f => f x :: xs
  | x :: xs, n + 1, f => x :: modifyAt xs n f

/-- visited[row][col] (read after the bounds guard has passed). -/
def get2D (g : List (List Bool)) (r c : Int) : Bool :=
  (g.getD r.toNat []).getD c.toNat false

/-- visited[row][col] = b (written only at in-bounds cells). -/
def set2D (g : List (List Bool)) (r c : Int) (b : Bool) : List (List Bool) :=
  modifyAt g r.toNat (fun row => modifyAt row c.toNat (fun _ => b))

/-- puzzle[row][col] for in-bounds coordinates of a rectangular grid. -/
def puzzleCharAt (p : List (List Char)) (r c : Int) : Char :=
  (p.getD r.toNat []).getD c.toNat ' '

/-- Write to the visited grid of the environment. -/
def SnakeEnv.setVisited (env : SnakeEnv) (r c : Int) (b : Bool) : SnakeEnv :=
  { env with visited := set2D env.visited r c b }

/-- The dfs closure of findStringInSnakingPuzzle, with the shared mutable
state threaded explicitly: success consumes the whole search string; bounds,
revisits and character mismatches fail without touching the state; otherwise
the cell is marked, the four directions right, down, left, up are tried in
order, and on total failure the cell is unmarked again. -/
def dfs (searchStr : List Char) (rows cols : Int) (env : SnakeEnv) (row col : Int)
    (index : Nat) : Bool × SnakeEnv :=
  if h1 : index = searchStr.length then (true, env)
  else if h2 : row < 0 ∨ rows ≤ row ∨ col < 0 ∨ cols ≤ col ∨ get2D env.visited row col = true then
    (false, env)
  else if h3 : searchStr.get? index ≠ some (puzzleCharAt env.puzzle row col) then (false, env)
  else
    match dfs searchStr rows cols (env.setVisited row col true) row (col + 1) (index + 1) with
    | (true, e) => (true, e)
    | (false, e1) =>
      match dfs searchStr rows cols e1 (row + 1) col (index + 1) with
      | (true, e) => (true, e)
      | (false, e2) =>
        match dfs searchStr rows cols e2 row (col - 1) (index + 1) with
        | (true, e) => (true, e)
        | (false, e3) =>
          match dfs searchStr rows cols e3 (row - 1) col (index + 1) with
          | (true, e) => (true, e)
          | (false, e4) => (false, e4.setVisited row col false)
termination_by searchStr.length - index
decreasing_by
  all_goals
    obtain ⟨hlt, -⟩ := List.get?_eq_some.mp (not_not.mp h3)
    omega

/-- The starting cells of the outer double loop, in loop order. -/
def snakeStarts (rows cols : Nat) : List (Int × Int) :=
  (List.range rows).flatMap (fun i => (List.range cols).map (fun j => ((i : Int), (j : Int))))

/-- The outer loop of findStringInSnakingPuzzle, threading the shared
visited state from one start cell to the next exactly as the source does. -/
def findLoop (searchStr : List Char) (rows cols : Int) : List (Int × Int) → SnakeEnv → Bool
  | [], _ => false
  | ij :: rest, env =>
    let r := dfs searchStr rows cols env ij.1 ij.2 0
    if r.1 then true else findLoop searchStr rows cols rest r.2

/-- Model of findStringInSnakingPuzzle. -/
def findStringInSnakingPuzzle (puzzle : List (List Char)) (searchStr : List Char) : Bool :=
  let rows := puzzle.length
  let cols := (puzzle.headD []).length
  findLoop searchStr rows cols (snakeStarts rows cols)
    { puzzle := puzzle, visited := List.replicate rows (List.replicate cols false) }

/- ### proof-side auxiliary definitions -/

/-- The base-84 value of a digit list, most significant digit first
(mirrors the accumulation loop of UrlShortener with digits abstracted). -/
def digitsVal (ds : List Int) : Int :=
  ds.foldl (fun n d => n * 84 + d) 0

/-- The consecutive run s, s+1, ..., s+n (n+1 elements), used to describe
the run a (start, prev) pair of extractRanges stands for. -/
def crun (s : Int) : Nat → List Int
  | 0 => [s]
  | n + 1 => s :: crun (s + 1) n

/-- Apply one CssSelector method repeatedly with the given arguments,
stopping at the first usage error. -/
def applyChain (m : CssSelector → String → Except String CssSelector) :
    CssSelector → List String → Except String CssSelector
  | c, [] => Except.ok c
  | c, v :: vs =>
    match m c v with
    | Except.ok c1 => applyChain m c1 vs
    | Except.error e => Except.error e

/- ### Theorems -/

/-- Claim C10: extractRanges applied to the empty integer list returns the
empty string, neither failing nor emitting any separator. -/
theorem extractRanges_empty : extractRanges [] = "" := rfl

/-- Claim C9 counterexample: the claim says the pattern for digit 3 equals
the pattern for digit 9, but in the source table they differ (digit 3 has a
blank top-left in its middle row where digit 9 has a bar). -/
theorem digitPatterns_three_ne_nine :
    parseBankAccount.digitPatterns.getD 3 "" ≠ parseBankAccount.digitPatterns.getD 9 "" := by
  decide

/-- Claim C9 (amended): the duplicated entries of the digit-pattern table
are digits 5 and 9, whose pattern strings are identical, so the indexOf
lookup resolves the shared glyph to 5 and a 9 glyph can never be parsed. -/
theorem digitPatterns_five_eq_nine :
    parseBankAccount.digitPatterns.getD 5 "" = parseBankAccount.digitPatterns.getD 9 "" ∧
      parseBankAccount.patternIndex (parseBankAccount.digitPatterns.getD 9 "") = 5 := by
  constructor
  · decide
  · decide

/-- Claim C2: createCompassPoints() is claimed to return 32 records, but the
source's double loop produces only 16 points (indices 0..15) and the fix-up
assignment points[20].abbreviation then dereferences undefined, so the call
throws a TypeError instead of returning. -/
theorem createCompassPoints_throws :
    createCompassPoints = Except.error "TypeError" ∧ compassPointsRaw.length = 16 :=
  ⟨rfl, rfl⟩

/-- Claim C4: wrapText is claimed to emit every word, an over-long word on
its own overflowing line; but the source discards any word longer than the
column limit, so wrapping "abcdef" at 3 columns yields no lines at all.
The second conjunct checks the docstring example, where every word fits. -/
theorem wrapText_drops_long_word :
    wrapText "abcdef".toList 3 = [] ∧
      wrapText "The String global object is a constructor for strings, or a sequence of characters.".toList 26 =
        ["The String global object".toList, "is a constructor for".toList,
          "strings, or a sequence of".toList, "characters.".toList] := by
  constructor
  · decide
  · decide

/-- Claim C3: the regular straight flush is classified correctly, but the
ace-low hand is claimed to be a StraightFlush while the source returns Flush:
the rank "2" has indexOf 0, which is falsy, so the short-circuit remaps it to
parseInt("2") - 1 = 1, colliding with "3" and breaking the straight test. -/
theorem getPokerHandRank_ace_low :
    getPokerHandRank (["4♥", "5♥", "6♥", "7♥", "8♥"].map String.toList) =
        PokerRank.StraightFlush ∧
      getPokerHandRank (["A♠", "4♠", "3♠", "5♠", "2♠"].map String.toList) = PokerRank.Flush ∧
      PokerRank.Flush ≠ PokerRank.StraightFlush := by
  refine ⟨by decide, by decide, by decide⟩

/-- The accumulator of the extractRanges loop only ever receives appends. -/
theorem extractRangesGo_append (rest : List Int) :
    ∀ (start prev : Int) (res : List String),
      extractRangesGo start prev rest res = res ++ extractRangesGo start prev rest [] := by
  induction rest with
  | nil => intro start prev res; simp [extractRangesGo]
  | cons n rest ih =>
    intro start prev res
    by_cases h : n = prev + 1
    · subst h
      rw [extractRangesGo, extractRangesGo, if_neg (by simp), if_neg (by simp)]
      exact ih start (prev + 1) res
    · rw [extractRangesGo, extractRangesGo, if_pos h, if_pos h]
      rw [ih n n (res ++ [rangeItem start prev]), ih n n ([] ++ [rangeItem start prev])]
      simp

/-- Extending a consecutive run on the right. -/
theorem crun_snoc (n : Nat) : ∀ s : Int, crun s (n + 1) = crun s n ++ [s + n + 1] := by
  induction n with
  | zero => intro s; simp [crun]
  | succ n ih =>
    intro s
    have : crun s (n + 1 + 1) = s :: crun (s + 1) (n + 1) := rfl
    rw [this, ih (s + 1), crun]
    simp only [List.cons_append, List.append_assoc]
    congr 2
    push_cast
    ring_nf

/-- Length of a consecutive run. -/
theorem crun_length (n : Nat) : ∀ s : Int, (crun s n).length = n + 1 := by
  induction n with
  | zero => intro s; rfl
  | succ n ih => intro s; simp [crun, ih (s + 1)]

/-- Head of a consecutive run. -/
theorem crun_headD (n : Nat) (s : Int) : (crun s n).headD 0 = s := by
  cases n <;> rfl

/-- Last element of a consecutive run. -/
theorem crun_getLastD (n : Nat) : ∀ (s : Int) (d : Int), (crun s n).getLastD d = s + n := by
  induction n with
  | zero => intro s d; simp [crun]
  | succ n ih =>
    intro s d
    show (s :: crun (s + 1) n).getLastD d = s + (n + 1 : Nat)
    rw [List.getLastD_cons, ih (s + 1) s]
    push_cast
    ring

/-- A consecutive run is a single maximal block. -/
theorem consecutiveRuns_crun (n : Nat) : ∀ s : Int, consecutiveRuns (crun s n) = [crun s n] := by
  induction n with
  | zero => intro s; rfl
  | succ n ih =>
    intro s
    cases n with
    | zero => simp [crun, consecutiveRuns]
    | succ k =>
      show consecutiveRuns (s :: (s + 1) :: crun (s + 1 + 1) k) = [s :: crun (s + 1) (k + 1)]
      rw [consecutiveRuns, if_pos rfl]
      have hih : consecutiveRuns ((s + 1) :: crun (s + 1 + 1) k) = [crun (s + 1) (k + 1)] :=
        ih (s + 1)
      rw [hih]

/-- A maximal run followed by a non-successor element splits off as one
block. -/
theorem consecutiveRuns_break (n : Nat) :
    ∀ (s m : Int) (rest : List Int), m ≠ s + n + 1 →
      consecutiveRuns (crun s n ++ m :: rest) = crun s n :: consecutiveRuns (m :: rest) := by
  induction n with
  | zero =>
    intro s m rest hm
    show consecutiveRuns (s :: m :: rest) = [s] :: consecutiveRuns (m :: rest)
    rw [consecutiveRuns, if_neg (by push_cast at hm; omega)]
  | succ n ih =>
    intro s m rest hm
    show consecutiveRuns (s :: (crun (s + 1) n ++ m :: rest)) =
      (s :: crun (s + 1) n) :: consecutiveRuns (m :: rest)
    have hm1 : m ≠ (s + 1) + n + 1 := by push_cast at hm ⊢; omega
    cases n with
    | zero =>
      show consecutiveRuns (s :: (s + 1) :: m :: rest) =
        (s :: [s + 1]) :: consecutiveRuns (m :: rest)
      rw [consecutiveRuns, if_pos rfl]
      have h0 : consecutiveRuns ((s + 1) :: m :: rest) = [s + 1] :: consecutiveRuns (m :: rest) :=
        ih (s + 1) m rest hm1
      rw [h0]
    | succ k =>
      show consecutiveRuns (s :: (s + 1) :: (crun (s + 1 + 1) k ++ m :: rest)) =
        (s :: crun (s + 1) (k + 1)) :: consecutiveRuns (m :: rest)
      rw [consecutiveRuns, if_pos rfl]
      have h0 : consecutiveRuns (crun (s + 1) (k + 1) ++ m :: rest) =
          crun (s + 1) (k + 1) :: consecutiveRuns (m :: rest) :=
        ih (s + 1) m rest hm1
      have h1 : (s + 1) :: (crun (s + 1 + 1) k ++ m :: rest) =
          crun (s + 1) (k + 1) ++ m :: rest := rfl
      rw [h1, h0]

/-- The loop's rendering of the pair (start, start+n) agrees with the
spec-side rendering of the run it stands for. -/
theorem renderRun_crun (n : Nat) (s : Int) : renderRun (crun s n) = rangeItem s (s + n) := by
  match n with
  | 0 =>
    show renderRun [s] = rangeItem s (s + (0 : Nat))
    simp [renderRun, rangeItem]
  | 1 =>
    show renderRun (crun s 1) = rangeItem s (s + (1 : Nat))
    rw [renderRun, if_neg (by rw [crun_length]; omega), if_pos (by rw [crun_length]),
      crun_headD, crun_getLastD, rangeItem, if_neg (by push_cast; omega),
      if_pos (by push_cast; ring)]
  | (k + 2) =>
    rw [renderRun, if_pos (by rw [crun_length]; omega), crun_headD, crun_getLastD,
      rangeItem, if_neg (by push_cast; omega), if_neg (by push_cast; omega)]

/-- The extractRanges loop, started with a pending run start..start+n,
renders exactly the maximal consecutive runs of that run followed by the
remaining input. -/
theorem extractRangesGo_runs (rest : List Int) :
    ∀ (s : Int) (n : Nat),
      extractRangesGo s (s + n) rest [] = (consecutiveRuns (crun s n ++ rest)).map renderRun := by
  induction rest with
  | nil =>
    intro s n
    simp [extractRangesGo, consecutiveRuns_crun, renderRun_crun]
  | cons m rest ih =>
    intro s n
    by_cases h : m = s + n + 1
    · rw [extractRangesGo, if_neg (by omega)]
      have h2 : crun s n ++ m :: rest = crun s (n + 1) ++ rest := by
        rw [crun_snoc n s, h]; simp
      rw [h2]
      have h3 : extractRangesGo s m rest [] = extractRangesGo s (s + ((n + 1 : Nat) : Int)) rest [] := by
        rw [h]; push_cast; ring_nf
      rw [h3]
      exact ih s (n + 1)
    · rw [extractRangesGo, if_pos h]
      have h0 : extractRangesGo m m rest [] = (consecutiveRuns (m :: rest)).map renderRun := by
        have h1 := ih m 0
        simpa [crun] using h1
      rw [List.nil_append, extractRangesGo_append rest m m [rangeItem s (s + n)],
        consecutiveRuns_break n s m rest h]
      simp [h0, renderRun_crun]

/-- Claim C5: on strictly increasing input, extractRanges renders each
maximal run of three or more consecutive integers as "start-end", each run
of exactly two as "start,end", and isolated integers individually, joined by
commas (the refinement to rangesSpec), and in particular reproduces the four
examples of the spec. -/
theorem extractRanges_spec (nums : List Int) (h : List.Chain' (fun a b => a < b) nums) :
    extractRanges nums = rangesSpec nums ∧
      extractRanges [0, 1, 2, 3, 4, 5] = "0-5" ∧
      extractRanges [1, 4, 5] = "1,4,5" ∧
      extractRanges [0, 1, 2, 5, 7, 8, 9] = "0-2,5,7-9" ∧
      extractRanges [1, 2, 4, 5] = "1,2,4,5" := by
  refine ⟨?_, by decide, by decide, by decide, by decide⟩
  cases nums with
  | nil => rfl
  | cons x rest =>
    show String.intercalate "," (extractRangesGo x x rest []) = _
    have h0 := extractRangesGo_runs rest x 0
    simp only [crun, Nat.cast_zero, add_zero, List.cons_append, List.nil_append] at h0
    rw [h0, rangesSpec]

/-- Witness for claim C5 at the input [0,1,2,5,7,8,9]. -/
theorem extractRanges_spec_witness :
    List.Chain' (fun a b => a < b) ([0, 1, 2, 5, 7, 8, 9] : List Int) ∧
      extractRanges [0, 1, 2, 5, 7, 8, 9] = rangesSpec [0, 1, 2, 5, 7, 8, 9] :=
  ⟨by simp [List.chain'_cons], (extractRanges_spec [0, 1, 2, 5, 7, 8, 9] (by simp [List.chain'_cons])).1⟩

/-- Every element the merge produces from cursor state (i1, i2) is at least
any lower bound of the two current heads (ascending sources). -/
theorem mergeTake_lb (f1 f2 : Nat → Option Int) (h1 : AscendingSrc f1)
    (h2 : AscendingSrc f2) :
    ∀ (n : Nat) (lb : Int) (i1 i2 : Nat),
      (∀ a, f1 i1 = some a → lb ≤ a) → (∀ b, f2 i2 = some b → lb ≤ b) →
      ∀ x ∈ mergeTake f1 f2 n i1 i2, lb ≤ x := by
  intro n
  induction n with
  | zero => intro lb i1 i2 hb1 hb2 x hx; simp [mergeTake] at hx
  | succ n ih =>
    intro lb i1 i2 hb1 hb2 x hx
    rw [mergeTake] at hx
    cases hf1 : f1 i1 with
    | none =>
      cases hf2 : f2 i2 with
      | none => simp [mergeStep, hf1, hf2] at hx
      | some b =>
        simp only [mergeStep, hf1, hf2] at hx
        rcases List.mem_cons.mp hx with rfl | hx2
        · exact hb2 x hf2
        · exact ih lb i1 (i2 + 1) hb1
            (fun b2 hb => le_trans (hb2 b hf2) (h2 i2 b b2 hf2 hb)) x hx2
    | some a =>
      cases hf2 : f2 i2 with
      | none =>
        simp only [mergeStep, hf1, hf2] at hx
        rcases List.mem_cons.mp hx with rfl | hx2
        · exact hb1 x hf1
        · exact ih lb (i1 + 1) i2
            (fun a2 ha => le_trans (hb1 a hf1) (h1 i1 a a2 hf1 ha)) hb2 x hx2
      | some b =>
        by_cases hab : a ≤ b
        · simp only [mergeStep, hf1, hf2, if_pos hab] at hx
          rcases List.mem_cons.mp hx with rfl | hx2
          · exact hb1 x hf1
          · exact ih lb (i1 + 1) i2
              (fun a2 ha => le_trans (hb1 a hf1) (h1 i1 a a2 hf1 ha)) hb2 x hx2
        · simp only [mergeStep, hf1, hf2, if_neg hab] at hx
          rcases List.mem_cons.mp hx with rfl | hx2
          · exact hb2 x hf2
          · exact ih lb i1 (i2 + 1) hb1
              (fun b2 hb => le_trans (hb2 b hf2) (h2 i2 b b2 hf2 hb)) x hx2

/-- Any finite prefix the merge of two ascending sources produces is sorted. -/
theorem mergeTake_sorted (f1 f2 : Nat → Option Int) (h1 : AscendingSrc f1)
    (h2 : AscendingSrc f2) :
    ∀ (n i1 i2 : Nat), List.Sorted (fun a b => a ≤ b) (mergeTake f1 f2 n i1 i2) := by
  intro n
  induction n with
  | zero => intro i1 i2; simp [mergeTake]
  | succ n ih =>
    intro i1 i2
    rw [mergeTake]
    cases hf1 : f1 i1 with
    | none =>
      cases hf2 : f2 i2 with
      | none => simp [mergeStep, hf1, hf2]
      | some b =>
        simp only [mergeStep, hf1, hf2]
        rw [List.sorted_cons]
        refine ⟨?_, ih i1 (i2 + 1)⟩
        exact mergeTake_lb f1 f2 h1 h2 n b i1 (i2 + 1)
          (fun a ha => by rw [hf1] at ha; cases ha)
          (fun b2 hb => h2 i2 b b2 hf2 hb)
    | some a =>
      cases hf2 : f2 i2 with
      | none =>
        simp only [mergeStep, hf1, hf2]
        rw [List.sorted_cons]
        refine ⟨?_, ih (i1 + 1) i2⟩
        exact mergeTake_lb f1 f2 h1 h2 n a (i1 + 1) i2
          (fun a2 ha => h1 i1 a a2 hf1 ha)
          (fun b hb => by rw [hf2] at hb; cases hb)
      | some b =>
        by_cases hab : a ≤ b
        · simp only [mergeStep, hf1, hf2, if_pos hab]
          rw [List.sorted_cons]
          refine ⟨?_, ih (i1 + 1) i2⟩
          exact mergeTake_lb f1 f2 h1 h2 n a (i1 + 1) i2
            (fun a2 ha => h1 i1 a a2 hf1 ha)
            (fun b2 hb => by rw [hf2] at hb; injection hb with hb; omega)
        · simp only [mergeStep, hf1, hf2, if_neg hab]
          rw [List.sorted_cons]
          refine ⟨?_, ih i1 (i2 + 1)⟩
          exact mergeTake_lb f1 f2 h1 h2 n b i1 (i2 + 1)
            (fun a2 ha => by rw [hf1] at ha; injection ha with ha; omega)
            (fun b2 hb => h2 i2 b b2 hf2 hb)

/-- One loop iteration yields at most one element, so n pulls give at most
n elements. -/
theorem mergeTake_length (f1 f2 : Nat → Option Int) :
    ∀ (n i1 i2 : Nat), (mergeTake f1 f2 n i1 i2).length ≤ n := by
  intro n
  induction n with
  | zero => intro i1 i2; simp [mergeTake]
  | succ n ih =>
    intro i1 i2
    rw [mergeTake]
    cases hs : mergeStep f1 f2 i1 i2 with
    | none => simp
    | some t =>
      obtain ⟨v, j1, j2⟩ := t
      simpa using ih j1 j2

/-- Claim C6: for ascending sources (finite or infinite), taking any finite
prefix of the merged sequence terminates - mergeTake is total, by structural
recursion on the prefix length, and performs exactly one loop iteration per
element, so the prefix has at most n elements - and the prefix is sorted
ascending. -/
theorem mergeSortedSequences_sorted_prefix (f1 f2 : Nat → Option Int)
    (h1 : AscendingSrc f1) (h2 : AscendingSrc f2) (n : Nat) :
    List.Sorted (fun a b => a ≤ b) (mergeSortedSequences f1 f2 n) ∧
      (mergeSortedSequences f1 f2 n).length ≤ n :=
  ⟨mergeTake_sorted f1 f2 h1 h2 n 0 0, mergeTake_length f1 f2 n 0 0⟩

/-- Witness for claim C6: the first 10 elements of the merge of the infinite
odd and even sequences. -/
theorem mergeSortedSequences_sorted_prefix_witness :
    List.Sorted (fun a b => a ≤ b)
        (mergeSortedSequences (fun i => some (2 * (i : Int) + 1))
          (fun i => some (2 * (i : Int) + 2)) 10) ∧
      (mergeSortedSequences (fun i => some (2 * (i : Int) + 1))
          (fun i => some (2 * (i : Int) + 2)) 10).length ≤ 10 :=
  mergeSortedSequences_sorted_prefix _ _
    (fun i a b ha hb => by
      simp only [Option.some.injEq] at ha hb
      omega)
    (fun i a b ha hb => by
      simp only [Option.some.injEq] at ha hb
      omega)
    10

/-- Updating an entry with the value it already holds changes nothing. -/
theorem modifyAt_getD_self {α : Type} (l : List α) :
    ∀ (n : Nat) (d : α), modifyAt l n (fun _ => l.getD n d) = l := by
  induction l with
  | nil => intro n d; rfl
  | cons x xs ih =>
    intro n d
    cases n with
    | zero => rfl
    | succ m =>
      show x :: modifyAt xs m (fun _ => xs.getD m d) = x :: xs
      rw [ih m d]

/-- Two updates at the same index compose. -/
theorem modifyAt_modifyAt {α : Type} (l : List α) :
    ∀ (n : Nat) (f g : α → α), modifyAt (modifyAt l n f) n g = modifyAt l n (fun x => g (f x)) := by
  induction l with
  | nil => intro n f g; rfl
  | cons x xs ih =>
    intro n f g
    cases n with
    | zero => rfl
    | succ m =>
      show x :: modifyAt (modifyAt xs m f) m g = x :: modifyAt xs m (fun y => g (f y))
      rw [ih m f g]

/-- Two writes to the same visited cell keep only the second. -/
theorem set2D_set2D (g : List (List Bool)) (r c : Int) (a b : Bool) :
    set2D (set2D g r c a) r c b = set2D g r c b := by
  unfold set2D
  rw [modifyAt_modifyAt]
  congr 1
  funext row
  rw [modifyAt_modifyAt]

/-- Writing back the value a visited cell already holds changes nothing. -/
theorem set2D_get2D_self (g : List (List Bool)) :
    ∀ (r c : Int), set2D g r c (get2D g r c) = g := by
  have aux : ∀ (g : List (List Bool)) (k m : Nat),
      modifyAt g k (fun row => modifyAt row m (fun _ => (g.getD k []).getD m false)) = g := by
    intro g
    induction g with
    | nil => intro k m; rfl
    | cons row rest ih =>
      intro k m
      cases k with
      | zero =>
        show modifyAt row m (fun _ => row.getD m false) :: rest = row :: rest
        rw [modifyAt_getD_self row m false]
      | succ k2 =>
        show row :: modifyAt rest k2 (fun r2 => modifyAt r2 m (fun _ => (rest.getD k2 []).getD m false)) = row :: rest
        rw [ih k2 m]
  intro r c
  exact aux g r.toNat c.toNat

/-- setVisited never touches the puzzle component. -/
theorem setVisited_puzzle (env : SnakeEnv) (r c : Int) (b : Bool) :
    (env.setVisited r c b).puzzle = env.puzzle := rfl

/-- Marking and then unmarking a cell that was unmarked restores the
environment. -/
theorem setVisited_roundtrip (env : SnakeEnv) (r c : Int)
    (h : get2D env.visited r c = false) :
    (env.setVisited r c true).setVisited r c false = env := by
  show ⟨env.puzzle, set2D (set2D env.visited r c true) r c false⟩ = env
  rw [set2D_set2D]
  have h2 : set2D env.visited r c false = env.visited := by
    have h3 := set2D_get2D_self env.visited r c
    rw [h] at h3
    exact h3
  rw [h2]

/-- Fuel-indexed induction for dfs: the puzzle component is never written,
and a failing call returns the environment it was given - the cell marked on
entry is unmarked again after the four directions fail. -/
theorem dfs_restore_aux (fuel : Nat) :
    ∀ (searchStr : List Char) (rows cols : Int) (env : SnakeEnv) (row col : Int) (index : Nat),
      searchStr.length - index ≤ fuel →
      (dfs searchStr rows cols env row col index).2.puzzle = env.puzzle ∧
        ((dfs searchStr rows cols env row col index).1 = false →
          (dfs searchStr rows cols env row col index).2 = env) := by
  induction fuel with
  | zero =>
    intro searchStr rows cols env row col index hfuel
    by_cases h1 : index = searchStr.length
    · rw [dfs, dif_pos h1]
      exact ⟨rfl, by simp⟩
    · by_cases h2 : row < 0 ∨ rows ≤ row ∨ col < 0 ∨ cols ≤ col ∨ get2D env.visited row col = true
      · rw [dfs, dif_neg h1, dif_pos h2]
        exact ⟨rfl, fun _ => rfl⟩
      · by_cases h3 : searchStr.get? index ≠ some (puzzleCharAt env.puzzle row col)
        · rw [dfs, dif_neg h1, dif_neg h2, dif_pos h3]
          exact ⟨rfl, fun _ => rfl⟩
        · exfalso
          obtain ⟨hlt, -⟩ := List.get?_eq_some.mp (not_not.mp h3)
          omega
  | succ fuel ih =>
    intro searchStr rows cols env row col index hfuel
    by_cases h1 : index = searchStr.length
    · rw [dfs, dif_pos h1]
      exact ⟨rfl, by simp⟩
    · by_cases h2 : row < 0 ∨ rows ≤ row ∨ col < 0 ∨ cols ≤ col ∨ get2D env.visited row col = true
      · rw [dfs, dif_neg h1, dif_pos h2]
        exact ⟨rfl, fun _ => rfl⟩
      · by_cases h3 : searchStr.get? index ≠ some (puzzleCharAt env.puzzle row col)
        · rw [dfs, dif_neg h1, dif_neg h2, dif_pos h3]
          exact ⟨rfl, fun _ => rfl⟩
        · obtain ⟨hlt, -⟩ := List.get?_eq_some.mp (not_not.mp h3)
          have hfuel2 : searchStr.length - (index + 1) ≤ fuel := by omega
          have hvis : get2D env.visited row col = false := by
            push_neg at h2
            simpa using h2.2.2.2.2
          rw [dfs, dif_neg h1, dif_neg h2, dif_neg h3]
          split
          next e heq =>
            have hcall := ih searchStr rows cols (env.setVisited row col true) row (col + 1) (index + 1) hfuel2
            rw [heq] at hcall
            exact ⟨by simpa [setVisited_puzzle] using hcall.1, by simp⟩
          next e1 heq1 =>
            have hcall := ih searchStr rows cols (env.setVisited row col true) row (col + 1) (index + 1) hfuel2
            rw [heq1] at hcall
            have he1 : e1 = env.setVisited row col true := hcall.2 rfl
            subst he1
            split
            next e heq =>
              have hcall2 := ih searchStr rows cols (env.setVisited row col true) (row + 1) col (index + 1) hfuel2
              rw [heq] at hcall2
              exact ⟨by simpa [setVisited_puzzle] using hcall2.1, by simp⟩
            next e2 heq2 =>
              have hcall2 := ih searchStr rows cols (env.setVisited row col true) (row + 1) col (index + 1) hfuel2
              rw [heq2] at hcall2
              have he2 : e2 = env.setVisited row col true := hcall2.2 rfl
              subst he2
              split
              next e heq =>
                have hcall3 := ih searchStr rows cols (env.setVisited row col true) row (col - 1) (index + 1) hfuel2
                rw [heq] at hcall3
                exact ⟨by simpa [setVisited_puzzle] using hcall3.1, by simp⟩
              next e3 heq3 =>
                have hcall3 := ih searchStr rows cols (env.setVisited row col true) row (col - 1) (index + 1) hfuel2
                rw [heq3] at hcall3
                have he3 : e3 = env.setVisited row col true := hcall3.2 rfl
                subst he3
                split
                next e heq =>
                  have hcall4 := ih searchStr rows cols (env.setVisited row col true) (row - 1) col (index + 1) hfuel2
                  rw [heq] at hcall4
                  exact ⟨by simpa [setVisited_puzzle] using hcall4.1, by simp⟩
                next e4 heq4 =>
                  have hcall4 := ih searchStr rows cols (env.setVisited row col true) (row - 1) col (index + 1) hfuel2
                  rw [heq4] at hcall4
                  have he4 : e4 = env.setVisited row col true := hcall4.2 rfl
                  subst he4
                  constructor
                  · show ((env.setVisited row col true).setVisited row col false).puzzle = env.puzzle
                    rw [setVisited_roundtrip env row col hvis]
                  · intro _
                    show (env.setVisited row col true).setVisited row col false = env
                    exact setVisited_roundtrip env row col hvis

/-- Claim C8: findStringInSnakingPuzzle never writes to the puzzle grid -
dfs threads an environment of puzzle and visited grids, and the puzzle
component of the result always equals the input's - and every dfs call that
returns false leaves the whole environment, in particular the visited
scratch grid, exactly as it was on entry. -/
theorem findStringInSnakingPuzzle_backtrack (searchStr : List Char) (rows cols : Int)
    (env : SnakeEnv) (row col : Int) (index : Nat) :
    (dfs searchStr rows cols env row col index).2.puzzle = env.puzzle ∧
      ((dfs searchStr rows cols env row col index).1 = false →
        (dfs searchStr rows cols env row col index).2 = env) :=
  dfs_restore_aux (searchStr.length - index) searchStr rows cols env row col index le_rfl

/-- Witness for claim C8: a failing dfs call (character mismatch on a 1x1
grid) leaves the environment untouched. -/
theorem findStringInSnakingPuzzle_backtrack_witness :
    (dfs "B".toList 1 1 ⟨[['A']], [[false]]⟩ 0 0 0).1 = false ∧
      (dfs "B".toList 1 1 ⟨[['A']], [[false]]⟩ 0 0 0).2 = ⟨[['A']], [[false]]⟩ := by
  have h := findStringInSnakingPuzzle_backtrack "B".toList 1 1 ⟨[['A']], [[false]]⟩ 0 0 0
  have hfail : (dfs "B".toList 1 1 ⟨[['A']], [[false]]⟩ 0 0 0).1 = false := by
    rw [dfs, dif_neg (by decide), dif_neg (by decide), dif_pos (by decide)]
  exact ⟨hfail, h.2 hfail⟩

/-- Repeated class calls accumulate their fragments in call order. -/
theorem applyChain_class (vs : List String) :
    ∀ c : CssSelector, applyChain CssSelector.«class» c vs =
      Except.ok ⟨{ c.parts with classes := c.parts.classes ++ vs.map (fun w => "." ++ w) }⟩ := by
  induction vs with
  | nil => intro c; simp [applyChain]
  | cons w ws ih =>
    intro c
    rw [applyChain]
    show applyChain CssSelector.«class» ⟨{ c.parts with classes := c.parts.classes ++ ["." ++ w] }⟩ ws = _
    rw [ih ⟨{ c.parts with classes := c.parts.classes ++ ["." ++ w] }⟩]
    simp

/-- Repeated attr calls accumulate their fragments in call order. -/
theorem applyChain_attr (vs : List String) :
    ∀ c : CssSelector, applyChain CssSelector.attr c vs =
      Except.ok ⟨{ c.parts with attrs := c.parts.attrs ++ vs.map (fun w => "[" ++ w ++ "]") }⟩ := by
  induction vs with
  | nil => intro c; simp [applyChain]
  | cons w ws ih =>
    intro c
    rw [applyChain]
    show applyChain CssSelector.attr ⟨{ c.parts with attrs := c.parts.attrs ++ ["[" ++ w ++ "]"] }⟩ ws = _
    rw [ih ⟨{ c.parts with attrs := c.parts.attrs ++ ["[" ++ w ++ "]"] }⟩]
    simp

/-- Repeated pseudoClass calls accumulate their fragments in call order. -/
theorem applyChain_pseudoClass (vs : List String) :
    ∀ c : CssSelector, applyChain CssSelector.pseudoClass c vs =
      Except.ok ⟨{ c.parts with pseudoClasses := c.parts.pseudoClasses ++ vs.map (fun w => ":" ++ w) }⟩ := by
  induction vs with
  | nil => intro c; simp [applyChain]
  | cons w ws ih =>
    intro c
    rw [applyChain]
    show applyChain CssSelector.pseudoClass ⟨{ c.parts with pseudoClasses := c.parts.pseudoClasses ++ [":" ++ w] }⟩ ws = _
    rw [ih ⟨{ c.parts with pseudoClasses := c.parts.pseudoClasses ++ [":" ++ w] }⟩]
    simp

/-- A string with a nonempty literal prefixed is nonempty. -/
theorem prefixed_ne_empty (p v : String) (hp : 0 < p.length) : p ++ v ≠ "" := by
  intro h
  have h2 := congrArg String.length h
  rw [String.length_append] at h2
  simp at h2
  omega

/-- Claim C7 counterexample: the source tests prior assignment with JS
truthiness, so an element first set to the empty string does not register and
a second element call succeeds instead of raising the usage error. -/
theorem cssSelector_element_twice_no_error :
    (CssSelector.new.element "").bind (fun c => c.element "div") =
      Except.ok ⟨⟨some "div", none, [], [], [], none⟩⟩ := rfl

/-- Claim C7 (amended): on a single CssSelector chain a second element call
raises the usage error whenever the stored element fragment is non-empty (a
first element call with a non-empty value); id and pseudo-element fragments
are stored with "#" and "::" prefixes, hence always non-empty, so their
second calls always raise; class, attr and pseudoClass never raise and
accumulate their fragments in call order. -/
theorem cssSelector_usage (c : CssSelector) (v : String) :
    (v ≠ "" → ∀ c1, c.element v = Except.ok c1 → ∀ u, c1.element u =
      Except.error "Element, id and pseudo-element should be selected only once") ∧
      (∀ c2, c.id v = Except.ok c2 → ∀ u, c2.id u =
        Except.error "Element, id and pseudo-element should be selected only once") ∧
      (∀ c3, c.pseudoElement v = Except.ok c3 → ∀ u, c3.pseudoElement u =
        Except.error "Element, id and pseudo-element should be selected only once") ∧
      (∀ vs, applyChain CssSelector.«class» c vs =
        Except.ok ⟨{ c.parts with classes := c.parts.classes ++ vs.map (fun w => "." ++ w) }⟩) ∧
      (∀ vs, applyChain CssSelector.attr c vs =
        Except.ok ⟨{ c.parts with attrs := c.parts.attrs ++ vs.map (fun w => "[" ++ w ++ "]") }⟩) ∧
      (∀ vs, applyChain CssSelector.pseudoClass c vs =
        Except.ok ⟨{ c.parts with pseudoClasses := c.parts.pseudoClasses ++ vs.map (fun w => ":" ++ w) }⟩) := by
  refine ⟨?_, ?_, ?_, fun vs => applyChain_class vs c, fun vs => applyChain_attr vs c,
    fun vs => applyChain_pseudoClass vs c⟩
  · intro hv c1 hok u
    rw [CssSelector.element] at hok
    split at hok
    · exact absurd hok (by simp)
    · cases hok
      simp [CssSelector.element, jsTruthyOpt, hv]
  · intro c2 hok u
    rw [CssSelector.id] at hok
    split at hok
    · exact absurd hok (by simp)
    · cases hok
      simp [CssSelector.id, jsTruthyOpt, prefixed_ne_empty "#" v (by decide)]
  · intro c3 hok u
    rw [CssSelector.pseudoElement] at hok
    split at hok
    · exact absurd hok (by simp)
    · cases hok
      simp [CssSelector.pseudoElement, jsTruthyOpt, prefixed_ne_empty "::" v (by decide)]

/-- Witness for claim C7 on concrete chains. -/
theorem cssSelector_usage_witness :
    (CssSelector.new.element "div").bind (fun c => c.element "p") =
        Except.error "Element, id and pseudo-element should be selected only once" ∧
      (CssSelector.new.id "main").bind (fun c => c.id "x") =
        Except.error "Element, id and pseudo-element should be selected only once" ∧
      (CssSelector.new.pseudoElement "before").bind (fun c => c.pseudoElement "after") =
        Except.error "Element, id and pseudo-element should be selected only once" ∧
      applyChain CssSelector.«class» CssSelector.new ["container", "editable"] =
        Except.ok ⟨⟨none, none, [".container", ".editable"], [], [], none⟩⟩ := by
  refine ⟨?_, ?_, ?_, ?_⟩
  · exact (cssSelector_usage CssSelector.new "div").1 (by decide)
      ⟨⟨some "div", none, [], [], [], none⟩⟩ rfl "p"
  · exact (cssSelector_usage CssSelector.new "main").2.1
      ⟨⟨none, some "#main", [], [], [], none⟩⟩ rfl "x"
  · exact (cssSelector_usage CssSelector.new "before").2.2.1
      ⟨⟨none, none, [], [], [], some "::before"⟩⟩ rfl "after"
  · exact (cssSelector_usage CssSelector.new "x").2.2.2.1 ["container", "editable"]

/-- The base equals 84, the length of the alphabet. -/
theorem base_eq : UrlShortener.base = 84 := rfl

/-- The alphabet index of an alphabet character is in [0, 84). -/
theorem charIndex_mem_bounds :
    ∀ c ∈ UrlShortener.urlAllowedChars,
      0 ≤ UrlShortener.charIndex c ∧ UrlShortener.charIndex c < 84 := by decide

/-- Reading the alphabet at the index of an alphabet character returns it. -/
theorem charAt_charIndex :
    ∀ c ∈ UrlShortener.urlAllowedChars,
      UrlShortener.charAt (UrlShortener.charIndex c) = c := by decide

/-- Only the first alphabet character has index 0. -/
theorem charIndex_ne_zero :
    ∀ c ∈ UrlShortener.urlAllowedChars, c ≠ 'A' → UrlShortener.charIndex c ≠ 0 := by decide

/-- Indexing the alphabet character at a digit value recovers the digit. -/
theorem charIndex_charAt_nat :
    ∀ k ∈ List.range 84,
      UrlShortener.charIndex (UrlShortener.charAt (k : Int)) = (k : Int) := by decide

/-- Int version of charIndex_charAt_nat for digits in [0, 84). -/
theorem charIndex_charAt (i : Int) (h0 : 0 ≤ i) (h1 : i < 84) :
    UrlShortener.charIndex (UrlShortener.charAt i) = i := by
  have h := charIndex_charAt_nat i.toNat (List.mem_range.mpr (by omega))
  rwa [Int.toNat_of_nonneg h0] at h

/-- The digit loop stops on a non-positive value. -/
theorem toShortAux_nonpos (num : Int) (h : ¬ 0 < num) (acc : List Char) :
    UrlShortener.toShortAux num acc = acc := by
  rw [UrlShortener.toShortAux, dif_neg h]

/-- The digit loop peels one digit off a positive value. -/
theorem toShortAux_pos (num : Int) (h : 0 < num) (acc : List Char) :
    UrlShortener.toShortAux num acc =
      UrlShortener.toShortAux (num / UrlShortener.base)
        (UrlShortener.charAt (num % UrlShortener.base) :: acc) := by
  rw [UrlShortener.toShortAux, dif_pos h]

/-- The digit loop only prepends to its accumulator. -/
theorem toShortAux_append_aux (fuel : Nat) :
    ∀ (num : Int), num.toNat ≤ fuel → ∀ acc,
      UrlShortener.toShortAux num acc = UrlShortener.toShortAux num [] ++ acc := by
  induction fuel with
  | zero =>
    intro num h acc
    have hnp : ¬ 0 < num := by omega
    rw [toShortAux_nonpos num hnp acc, toShortAux_nonpos num hnp []]
    simp
  | succ fuel ih =>
    intro num h acc
    by_cases hpos : 0 < num
    · have hdiv : (num / UrlShortener.base).toNat ≤ fuel := by
        rw [base_eq]
        omega
      rw [toShortAux_pos num hpos acc, toShortAux_pos num hpos [],
        ih (num / UrlShortener.base) hdiv
          (UrlShortener.charAt (num % UrlShortener.base) :: acc),
        ih (num / UrlShortener.base) hdiv [UrlShortener.charAt (num % UrlShortener.base)]]
      simp
    · rw [toShortAux_nonpos num hpos acc, toShortAux_nonpos num hpos []]
      simp

/-- Accumulator form of the digit loop. -/
theorem toShortAux_append (num : Int) (acc : List Char) :
    UrlShortener.toShortAux num acc = UrlShortener.toShortAux num [] ++ acc :=
  toShortAux_append_aux num.toNat num le_rfl acc

/-- Appending one digit multiplies the value by the base and adds it. -/
theorem digitsVal_snoc (ds : List Int) (d : Int) :
    digitsVal (ds ++ [d]) = digitsVal ds * 84 + d := by
  simp [digitsVal, List.foldl_append]

/-- The digit-value fold never drops below a nonnegative initial value when
all digits are nonnegative. -/
theorem digitsVal_ge_init (t : List Int) :
    ∀ n : Int, 0 ≤ n → (∀ d ∈ t, 0 ≤ d) →
      n ≤ t.foldl (fun m d => m * 84 + d) n := by
  induction t with
  | nil => intro n _ _; simp
  | cons d t ih =>
    intro n hn hd
    have hd0 : 0 ≤ d := hd d (by simp)
    have h1 : n ≤ n * 84 + d := by omega
    have h2 : (0 : Int) ≤ n * 84 + d := by omega
    have h3 := ih (n * 84 + d) h2 (fun x hx => hd x (by simp [hx]))
    simpa using le_trans h1 h3

/-- A digit list with nonnegative digits and a nonzero leading digit has a
positive value. -/
theorem digitsVal_pos (ds : List Int) (hds : ∀ d ∈ ds, 0 ≤ d) (hne : ds ≠ [])
    (hhead : ds.headD 1 ≠ 0) : 0 < digitsVal ds := by
  cases ds with
  | nil => exact absurd rfl hne
  | cons h t =>
    have hh : 0 ≤ h := hds h (by simp)
    have hh0 : h ≠ 0 := by simpa using hhead
    have hge : h ≤ t.foldl (fun m d => m * 84 + d) h :=
      digitsVal_ge_init t h hh (fun d hd => hds d (by simp [hd]))
    have heq : digitsVal (h :: t) = t.foldl (fun m d => m * 84 + d) h := by
      simp [digitsVal]
    omega

/-- Base-84 rendering is a left inverse of digit evaluation on digit lists
with in-range digits and no leading zero. -/
theorem toShortAux_digitsVal :
    ∀ ds : List Int, (∀ d ∈ ds, 0 ≤ d ∧ d < 84) → ds.headD 1 ≠ 0 →
      UrlShortener.toShortAux (digitsVal ds) [] = ds.map UrlShortener.charAt := by
  intro ds
  induction ds using List.reverseRecOn with
  | nil =>
    intro _ _
    rw [show digitsVal [] = 0 from rfl, toShortAux_nonpos 0 (by omega) []]
    rfl
  | append_singleton ds d ih =>
    intro hds hhead
    have hd := hds d (by simp)
    rw [digitsVal_snoc]
    rcases eq_or_ne ds [] with rfl | hne
    · have hd0 : d ≠ 0 := by simpa using hhead
      have hdpos : 0 < d := by omega
      rw [show digitsVal [] * 84 + d = d by rw [show digitsVal [] = 0 from rfl]; ring]
      rw [toShortAux_pos d hdpos []]
      have hdiv : d / UrlShortener.base = 0 := by rw [base_eq]; omega
      have hmod : d % UrlShortener.base = d := by rw [base_eq]; omega
      rw [hdiv, hmod, toShortAux_nonpos 0 (by omega)]
      rfl
    · have hds2 : ∀ x ∈ ds, 0 ≤ x ∧ x < 84 := fun x hx => hds x (by simp [hx])
      have hhead2 : ds.headD 1 ≠ 0 := by
        cases ds with
        | nil => exact absurd rfl hne
        | cons a t => simpa using hhead
      have hv : 0 < digitsVal ds :=
        digitsVal_pos ds (fun x hx => (hds2 x hx).1) hne hhead2
      have hpos : 0 < digitsVal ds * 84 + d := by omega
      rw [toShortAux_pos _ hpos []]
      have hdiv : (digitsVal ds * 84 + d) / UrlShortener.base = digitsVal ds := by
        rw [base_eq]; omega
      have hmod : (digitsVal ds * 84 + d) % UrlShortener.base = d := by
        rw [base_eq]; omega
      rw [hdiv, hmod,
        toShortAux_append (digitsVal ds) [UrlShortener.charAt d], ih hds2 hhead2]
      simp

/-- The accumulation loop of encode and decode computes the digit value of
the character indices. -/
theorem numOf_eq_digitsVal (s : List Char) :
    UrlShortener.numOf s = digitsVal (s.map UrlShortener.charIndex) := by
  rw [UrlShortener.numOf, digitsVal, List.foldl_map, base_eq]

/-- encode unfolded (the let is definitional). -/
theorem encode_eq_ite (url : List Char) :
    UrlShortener.encode url =
      if UrlShortener.toShortAux (UrlShortener.numOf url) [] = [] then
        [UrlShortener.urlAllowedChars.getD 0 ' ']
      else UrlShortener.toShortAux (UrlShortener.numOf url) [] := rfl

/-- On an alphabet string with no leading zero digit, the render-back loop
reproduces the string. -/
theorem toShortAux_numOf (c : Char) (t : List Char)
    (hmem : ∀ x ∈ (c :: t), x ∈ UrlShortener.urlAllowedChars) (hc : c ≠ 'A') :
    UrlShortener.toShortAux (UrlShortener.numOf (c :: t)) [] = c :: t := by
  have hbounds : ∀ d ∈ (c :: t).map UrlShortener.charIndex, 0 ≤ d ∧ d < 84 := by
    intro d hd
    obtain ⟨x, hx, rfl⟩ := List.mem_map.mp hd
    exact charIndex_mem_bounds x (hmem x hx)
  have hhd : ((c :: t).map UrlShortener.charIndex).headD 1 ≠ 0 := by
    simpa using charIndex_ne_zero c (hmem c (by simp)) hc
  rw [numOf_eq_digitsVal, toShortAux_digitsVal _ hbounds hhd, List.map_map]
  have hcongr : ∀ x ∈ (c :: t),
      (UrlShortener.charAt ∘ UrlShortener.charIndex) x = id x := by
    intro x hx
    exact charAt_charIndex x (hmem x hx)
  rw [List.map_congr_left hcongr, List.map_id]

/-- Claim C1 counterexample: the alphabet has 84 characters (not 94), and on
the alphabet string "A" - the character of index 0 - the round trip fails:
encode "A" evaluates to value 0, renders as the empty string and falls back
to "A", and decode "A" returns the empty string. -/
theorem urlShortener_roundtrip_counterexample :
    UrlShortener.urlAllowedChars.length = 84 ∧
      'A' ∈ UrlShortener.urlAllowedChars ∧
      UrlShortener.decode (UrlShortener.encode ['A']) ≠ ['A'] := by
  refine ⟨by decide, by decide, ?_⟩
  have h0 : UrlShortener.numOf ['A'] = 0 := by decide
  have h2 : UrlShortener.toShortAux 0 [] = [] := toShortAux_nonpos 0 (by omega) []
  have henc : UrlShortener.encode ['A'] = ['A'] := by
    rw [encode_eq_ite, h0, h2, if_pos rfl]
    rfl
  have hdec : UrlShortener.decode ['A'] = [] := by
    rw [UrlShortener.decode, h0, h2]
  rw [henc, hdec]
  simp

/-- Claim C1 (amended): the UrlShortener alphabet has 84 characters, and
decode inverts encode exactly on the alphabet strings that are empty or do
not start with the zero-index character "A"; a leading "A" is a leading zero
digit of the base-84 value and is lost by the round trip. -/
theorem urlShortener_roundtrip (s : List Char)
    (hmem : ∀ c ∈ s, c ∈ UrlShortener.urlAllowedChars)
    (hhead : s.headD 'A' ≠ 'A' ∨ s = []) :
    UrlShortener.decode (UrlShortener.encode s) = s := by
  rcases hhead with hhead | rfl
  · cases s with
    | nil => simp at hhead
    | cons c t =>
      have hc : c ≠ 'A' := by simpa using hhead
      have hts := toShortAux_numOf c t hmem hc
      have henc : UrlShortener.encode (c :: t) = c :: t := by
        rw [encode_eq_ite, hts, if_neg (by simp)]
      rw [henc, UrlShortener.decode, hts]
  · have h0 : UrlShortener.numOf [] = 0 := rfl
    have h2 : UrlShortener.toShortAux 0 [] = [] := toShortAux_nonpos 0 (by omega) []
    have henc : UrlShortener.encode [] = ['A'] := by
      rw [encode_eq_ite, h0, h2, if_pos rfl]
      rfl
    have h3 : UrlShortener.numOf ['A'] = 0 := by decide
    rw [henc, UrlShortener.decode, h3, h2]

/-- Witness for claim C1 on the alphabet string "https". -/
theorem urlShortener_roundtrip_witness :
    UrlShortener.decode (UrlShortener.encode "https".toList) = "https".toList :=
  urlShortener_roundtrip "https".toList (by decide) (Or.inl (by decide))
